import Mathlib

/-!
Verification development for the HD picture converter packaging pipeline
(`src/bin/cli.rs`): prefix validation, tar-entry framing of appvar payloads,
gzip-style stream compression, and output path derivation.
-/

set_option maxRecDepth 16384

namespace HdPic

/-! ## Identifier validator (`var_prefix_str`, cli.rs lines 12-31) -/

/-- Rust `char::is_ascii_alphabetic`: `'A'..='Z' | 'a'..='z'`. -/
def is_ascii_alphabetic (c : Char) : Bool :=
  (65 ≤ c.toNat && c.toNat ≤ 90) || (97 ≤ c.toNat && c.toNat ≤ 122)

/-- Structured form of the two error messages produced by `var_prefix_str`:
the length error carries the actual character count, the alphabetic error
carries the offending character and its (0-based) index. -/
inductive PrefixError where
  | wrongLength (len : Nat)
  | nonAlphabetic (c : Char) (i : Nat)
deriving DecidableEq, Repr

/-- The `for (i, c) in s.chars().enumerate()` scan of `var_prefix_str`:
first character failing `is_ascii_alphabetic`, with its index. -/
def findNonAlpha : List Char → Nat → Option (Char × Nat)
  | [], _ => none
  | c :: cs, i =>
    if is_ascii_alphabetic c then findNonAlpha cs (i + 1) else some (c, i)

/-- `var_prefix_str` from cli.rs: length (in Unicode scalar values) must be
exactly 2, then every character must be ASCII alphabetic; on success the
input string is returned unchanged. -/
def var_prefix_str (s : String) : Except PrefixError String :=
  let len := s.data.length
  if len ≠ 2 then .error (.wrongLength len)
  else
    match findNonAlpha s.data 0 with
    | some (c, i) => .error (.nonAlphabetic c i)
    | none => .ok s

/-! ## Octal header fields (tar numeric encoding) -/

/-- Base-8 digits of `v`, most significant first; empty for `0`. -/
def octalDigits : Nat → List Nat
  | 0 => []
  | v + 1 => octalDigits ((v + 1) / 8) ++ [(v + 1) % 8]
decreasing_by exact Nat.div_lt_self (Nat.succ_pos v) (by omega)

/-- ASCII octal rendering of `v` (Rust `format` with the octal specifier):
at least one digit, digits as bytes `48..55`. -/
def octalRepr (v : Nat) : List Nat :=
  if v = 0 then [48] else (octalDigits v).map (· + 48)

/-- The tar crate's numeric field writer: the octal rendering right-aligned
over the first `len - 1` bytes, padded on the left with ASCII `0`, the last
byte left as `NUL`. -/
def octalInto (len v : Nat) : List Nat :=
  List.replicate (len - 1 - (octalRepr v).length) 48 ++ octalRepr v ++ [0]

/-- Octal field reader: accumulate bytes while they are octal digit
characters, stop at the first non-digit (`NUL` or space). -/
def readOctalAux : List Nat → Nat → Nat
  | [], acc => acc
  | b :: bs, acc =>
    if 48 ≤ b ∧ b ≤ 55 then readOctalAux bs (acc * 8 + (b - 48)) else acc

def readOctal (l : List Nat) : Nat := readOctalAux l 0

theorem octalDigits_lt8 : ∀ v, ∀ d ∈ octalDigits v, d < 8 := by
  intro v
  induction v using Nat.strong_induction_on with
  | _ v ih =>
    match v with
    | 0 => intro d hd; simp [octalDigits] at hd
    | w + 1 =>
      intro d hd
      rw [octalDigits] at hd
      rcases List.mem_append.mp hd with h | h
      · exact ih ((w + 1) / 8) (Nat.div_lt_self (Nat.succ_pos w) (by omega)) d h
      · simp at h; omega

theorem octalDigits_length_le : ∀ k v, v < 8 ^ k → (octalDigits v).length ≤ k := by
  intro k
  induction k with
  | zero => intro v hv; interval_cases v; simp [octalDigits]
  | succ k ih =>
    intro v hv
    match v with
    | 0 => simp [octalDigits]
    | w + 1 =>
      rw [octalDigits]
      have hdiv : (w + 1) / 8 < 8 ^ k :=
        Nat.div_lt_of_lt_mul (by rw [← pow_succ']; exact hv)
      have := ih ((w + 1) / 8) hdiv
      simp [List.length_append]
      omega

theorem octalRepr_length_le (k v : Nat) (hk : 1 ≤ k) (hv : v < 8 ^ k) :
    (octalRepr v).length ≤ k := by
  unfold octalRepr
  split
  · simpa using hk
  · simpa using octalDigits_length_le k v hv

theorem length_octalInto (len v : Nat) (hlen : 1 ≤ len)
    (h : (octalRepr v).length ≤ len - 1) :
    (octalInto len v).length = len := by
  simp [octalInto]
  omega

theorem foldl_octalDigits : ∀ v, (octalDigits v).foldl (fun a d => a * 8 + d) 0 = v := by
  intro v
  induction v using Nat.strong_induction_on with
  | _ v ih =>
    match v with
    | 0 => simp [octalDigits]
    | w + 1 =>
      rw [octalDigits]
      rw [List.foldl_append]
      have := ih ((w + 1) / 8) (Nat.div_lt_self (Nat.succ_pos w) (by omega))
      rw [this]
      simp only [List.foldl_cons, List.foldl_nil]
      omega

theorem readOctalAux_digits (ds : List Nat) (h : ∀ d ∈ ds, d < 8) :
    ∀ acc, readOctalAux (ds.map (· + 48) ++ [0]) acc =
      ds.foldl (fun a d => a * 8 + d) acc := by
  induction ds with
  | nil => intro acc; simp [readOctalAux]
  | cons d ds ih =>
    intro acc
    have hd : d < 8 := h d (List.mem_cons_self d ds)
    simp only [List.map_cons, List.cons_append, readOctalAux]
    rw [if_pos (by omega)]
    have : d + 48 - 48 = d := by omega
    rw [this]
    exact ih (fun x hx => h x (List.mem_cons_of_mem d hx)) _

theorem readOctalAux_zeros (k : Nat) (rest : List Nat) :
    readOctalAux (List.replicate k 48 ++ rest) 0 = readOctalAux rest 0 := by
  induction k with
  | zero => simp
  | succ k ih =>
    simp only [List.replicate_succ, List.cons_append, readOctalAux]
    rw [if_pos (by omega)]
    simpa using ih

theorem readOctal_octalInto (len v : Nat) : readOctal (octalInto len v) = v := by
  unfold readOctal octalInto
  rw [List.append_assoc, readOctalAux_zeros]
  by_cases hv : v = 0
  · subst hv
    simp [octalRepr, readOctalAux]
  · rw [octalRepr, if_neg hv]
    rw [readOctalAux_digits (octalDigits v) (octalDigits_lt8 v) 0]
    exact foldl_octalDigits v

/-! ## Generic list-prefix helpers -/

theorem take_pre {α : Type} (n : Nat) (l₁ l₂ : List α) (h : l₁.length = n) :
    (l₁ ++ l₂).take n = l₁ := by
  subst h
  induction l₁ with
  | nil => simp
  | cons a t ih => simp [ih]

theorem drop_pre {α : Type} (n : Nat) (l₁ l₂ : List α) (h : l₁.length = n) :
    (l₁ ++ l₂).drop n = l₂ := by
  subst h
  induction l₁ with
  | nil => simp
  | cons a t ih => simp [ih]

theorem takeWhile_append_all {α : Type} (p : α → Bool) (l₁ l₂ : List α)
    (h : ∀ a ∈ l₁, p a = true) :
    (l₁ ++ l₂).takeWhile p = l₁ ++ l₂.takeWhile p := by
  induction l₁ with
  | nil => simp
  | cons a t ih =>
    simp only [List.cons_append, List.takeWhile_cons,
      h a (List.mem_cons_self a t), if_pos trivial]
    rw [ih (fun x hx => h x (List.mem_cons_of_mem a hx))]

/-! ## Tar entry framing

Modelled from the spec: the Archive Entry Builder and end-of-archive
trailer (sections 4.2/4.3 and the persisted output format of section 6)
are realised in the source by the external `tar` crate (not under `src/`):
a 512-byte GNU header records the entry name, an octal size, the fixed
permission mode `0o644`, and a checksum computed over the finalized header
(with the checksum field read as eight spaces), followed by the raw payload
padded to a 512-byte block boundary; the archive ends with two zero blocks.
-/

/-- A named binary blob handed to the archive entry builder: the payload
(name, bytes) pair of the spec's data model. -/
structure Payload where
  name : List Nat
  data : List Nat
deriving DecidableEq, Repr

/-- The fixed entry-name suffix `".8xv"` appended by `main` (UTF-8 bytes). -/
def SUFFIX : List Nat := [46, 56, 120, 118]

/-- Pad a field to `n` bytes with trailing `NUL`s. -/
def padTo (n : Nat) (l : List Nat) : List Nat :=
  l ++ List.replicate (n - l.length) 0

/-- GNU magic and version bytes at header offset 257 (`"ustar "`, `" \0"`). -/
def MAGIC : List Nat := [117, 115, 116, 97, 114, 32, 32, 0]

/-- Header bytes before the checksum field (offsets 0-147): name (100),
mode (8, fixed `0o644 = 420`), uid and gid (16 zero bytes), size (12),
mtime (12, zero as set by `Header::new_gnu`). -/
def headerPre (nm : List Nat) (size : Nat) : List Nat :=
  padTo 100 nm ++ octalInto 8 420 ++ List.replicate 16 0 ++
    octalInto 12 size ++ octalInto 12 0

/-- Header bytes after the checksum field (offsets 156-511): typeflag (1),
linkname (100 zero bytes), GNU magic and version (8), remaining fields zero. -/
def headerPost : List Nat :=
  [0] ++ List.replicate 100 0 ++ MAGIC ++ List.replicate 247 0

/-- The tar checksum: sum of all 512 header bytes with the 8-byte checksum
field read as ASCII spaces (8 * 32 = 256). -/
def headerCksum (nm : List Nat) (size : Nat) : Nat :=
  (headerPre nm size).sum + 256 + headerPost.sum

/-- Modelled from the spec: the archive entry header the tar crate (not in
`src/`) writes — the complete 512-byte header as produced by `set_size`,
`set_mode`, `set_path` and the final `set_cksum` inside `append_data`. -/
def headerBytes (nm : List Nat) (size : Nat) : List Nat :=
  headerPre nm size ++ octalInto 8 (headerCksum nm size) ++ headerPost

/-- Zero padding placed after an entry's data to reach a 512-byte boundary. -/
def padLen (n : Nat) : Nat := (512 - n % 512) % 512

/-- Modelled from the spec: one framed archive entry as the tar crate (not
in `src/`) writes it — header, payload bytes, block padding. -/
def entryBytes (nm : List Nat) (data : List Nat) : List Nat :=
  headerBytes nm data.length ++ data ++ List.replicate (padLen data.length) 0

/-- The container `main` assembles (loop of lines 104-126 plus `finish`):
one entry per tile payload in enumeration order, then the palette entry,
then the 1024-byte trailer written by `finish` (modelled from the spec's
container format, the tar crate being outside `src/`). Entry names are the
payload names with `".8xv"` appended. -/
def assembleBytes (tiles : List Payload) (palette : Payload) : List Nat :=
  (tiles.map (fun p => entryBytes (p.name ++ SUFFIX) p.data)).flatten ++
    entryBytes (palette.name ++ SUFFIX) palette.data ++ List.replicate 1024 0

/-- A payload the archive format can frame faithfully: the derived entry
name fits the 100-byte name field, its bytes are nonzero single bytes, and
the size fits the 12-byte octal field. -/
def goodPayload (p : Payload) : Prop :=
  p.name.length + 4 ≤ 100 ∧ (∀ b ∈ p.name, 0 < b ∧ b < 256) ∧
    p.data.length < 8 ^ 11

instance (p : Payload) : Decidable (goodPayload p) := by
  unfold goodPayload; infer_instance

/-- A decoded archive entry: name, raw mode field, recorded size, whether
the stored checksum matches the recomputed one, and the payload bytes. -/
structure TarEntry where
  name : List Nat
  modeField : List Nat
  size : Nat
  cksumOk : Bool
  data : List Nat
deriving DecidableEq, Repr

def isZeroBlock (l : List Nat) : Bool := l.all (· = 0)

/-- Fuel-indexed tar reader: reads a 512-byte header, stops at an all-zero
block, extracts the name (up to the first `NUL` in the first 100 bytes),
mode field, octal size, checks the checksum, takes the payload bytes and
skips block padding. -/
def decodeAux : Nat → List Nat → Option (List TarEntry)
  | 0, _ => none
  | f + 1, bs =>
    if bs.length < 512 then none
    else
      let hdr := bs.take 512
      if isZeroBlock hdr then some []
      else
        let nm := (hdr.take 100).takeWhile (fun b => b != 0)
        let modeF := (hdr.drop 100).take 8
        let size := readOctal ((hdr.drop 124).take 12)
        let ckStored := readOctal ((hdr.drop 148).take 8)
        let ckOk := ckStored == (hdr.take 148).sum + 256 + (hdr.drop 156).sum
        let rest := bs.drop 512
        if size ≤ rest.length then
          match decodeAux f ((rest.drop size).drop (padLen size)) with
          | some es => some (⟨nm, modeF, size, ckOk, rest.take size⟩ :: es)
          | none => none
        else none

/-- Decode a byte buffer as a tar archive (the buffer's length is always
enough fuel, as every entry consumes at least 512 bytes). -/
def decodeTar (bs : List Nat) : Option (List TarEntry) := decodeAux bs.length bs

/-- The entry the decoder recovers for a faithfully framed payload. -/
def entryOf (p : Payload) : TarEntry :=
  ⟨p.name ++ SUFFIX, octalInto 8 420, p.data.length, true, p.data⟩

/-! ## Header field lemmas -/

theorem drop_add_pre {α : Type} (n m : Nat) (l₁ l₂ : List α) (h : l₁.length = n) :
    (l₁ ++ l₂).drop (n + m) = l₂.drop m := by
  subst h
  induction l₁ with
  | nil => simp
  | cons a t ih =>
    have h1 : t.length + 1 + m = (t.length + m) + 1 := by omega
    simp only [List.cons_append, List.length_cons, h1, List.drop_succ_cons]
    exact ih

theorem octalDigits_pos (v : Nat) (h : 0 < v) :
    octalDigits v = octalDigits (v / 8) ++ [v % 8] := by
  match v with
  | w + 1 => rw [octalDigits]

theorem octalDigits_420 : octalDigits 420 = [6, 4, 4] := by
  rw [octalDigits_pos 420 (by omega)]
  norm_num
  rw [octalDigits_pos 52 (by omega)]
  norm_num
  rw [octalDigits_pos 6 (by omega)]
  norm_num
  rw [octalDigits]

theorem octalRepr_420 : octalRepr 420 = [54, 52, 52] := by
  rw [octalRepr, if_neg (by omega), octalDigits_420]
  rfl

theorem length_padTo (n : Nat) (l : List Nat) (h : l.length ≤ n) :
    (padTo n l).length = n := by
  simp [padTo]
  omega

theorem length_octalInto_mode : (octalInto 8 420).length = 8 :=
  length_octalInto 8 420 (by omega) (by rw [octalRepr_420]; simp)

theorem length_octalInto_12 (v : Nat) (hv : v < 8 ^ 11) :
    (octalInto 12 v).length = 12 :=
  length_octalInto 12 v (by omega)
    (by have := octalRepr_length_le 11 v (by omega) hv; omega)

theorem headerPre_length (nm : List Nat) (s : Nat) (hnm : nm.length ≤ 100)
    (hs : s < 8 ^ 11) : (headerPre nm s).length = 148 := by
  simp only [headerPre, List.length_append, length_padTo 100 nm hnm,
    length_octalInto_mode, List.length_replicate, length_octalInto_12 s hs,
    length_octalInto_12 0 (by omega)]

theorem octalInto_bytes_le (len v : Nat) : ∀ b ∈ octalInto len v, b ≤ 55 := by
  intro b hb
  simp only [octalInto, List.append_assoc, List.mem_append] at hb
  rcases hb with h | h | h
  · have := List.eq_of_mem_replicate h; omega
  · rw [octalRepr] at h
    split at h
    · simp at h; omega
    · rcases List.mem_map.mp h with ⟨d, hd, hdb⟩
      have := octalDigits_lt8 v d hd
      omega
  · simp at h; omega

theorem sum_le_of_bound (l : List Nat) (m : Nat) (h : ∀ b ∈ l, b ≤ m) :
    l.sum ≤ l.length * m := by
  induction l with
  | nil => simp
  | cons a t ih =>
    have ha := h a (List.mem_cons_self a t)
    have := ih (fun x hx => h x (List.mem_cons_of_mem a hx))
    simp only [List.sum_cons, List.length_cons]
    calc a + t.sum ≤ m + t.length * m := by omega
      _ = (t.length + 1) * m := by ring

theorem octalInto_sum_le (len v : Nat) (hlen : 1 ≤ len)
    (h : (octalRepr v).length ≤ len - 1) : (octalInto len v).sum ≤ len * 55 := by
  have h1 := sum_le_of_bound (octalInto len v) 55 (octalInto_bytes_le len v)
  have h2 : (octalInto len v).length = len := length_octalInto len v hlen h
  omega

theorem headerPost_sum : headerPost.sum = 623 := by decide

theorem headerCksum_lt (nm : List Nat) (s : Nat) (hnm : nm.length ≤ 100)
    (hb : ∀ b ∈ nm, b < 256) (hs : s < 8 ^ 11) :
    headerCksum nm s < 8 ^ 7 := by
  have hnmsum : nm.sum ≤ nm.length * 255 :=
    sum_le_of_bound nm 255 (fun b hb2 => by have := hb b hb2; omega)
  have hpadsum : (padTo 100 nm).sum = nm.sum := by
    simp [padTo]
  have h1 : (octalInto 8 420).sum ≤ 8 * 55 :=
    octalInto_sum_le 8 420 (by omega) (by rw [octalRepr_420]; simp)
  have h2 : (octalInto 12 s).sum ≤ 12 * 55 :=
    octalInto_sum_le 12 s (by omega)
      (by have := octalRepr_length_le 11 s (by omega) hs; omega)
  have h3 : (octalInto 12 0).sum ≤ 12 * 55 :=
    octalInto_sum_le 12 0 (by omega)
      (by have := octalRepr_length_le 11 0 (by omega) (by omega); omega)
  have hpre : (headerPre nm s).sum =
      (padTo 100 nm).sum + ((octalInto 8 420).sum + ((List.replicate 16 0).sum +
        ((octalInto 12 s).sum + (octalInto 12 0).sum))) := by
    simp [headerPre, List.sum_append]
  have hrep : (List.replicate 16 (0 : Nat)).sum = 0 := by simp
  rw [headerCksum, headerPost_sum, hpre, hpadsum, hrep]
  omega

theorem headerPost_length : headerPost.length = 356 := by decide

theorem headerBytes_expand (nm : List Nat) (s : Nat) :
    headerBytes nm s = padTo 100 nm ++ (octalInto 8 420 ++
      (List.replicate 16 0 ++ (octalInto 12 s ++ (octalInto 12 0 ++
        (octalInto 8 (headerCksum nm s) ++ headerPost))))) := by
  simp [headerBytes, headerPre, List.append_assoc]

theorem headerBytes_length (nm : List Nat) (s : Nat) (hnm : nm.length ≤ 100)
    (hb : ∀ b ∈ nm, b < 256) (hs : s < 8 ^ 11) :
    (headerBytes nm s).length = 512 := by
  have hck : (octalInto 8 (headerCksum nm s)).length = 8 :=
    length_octalInto 8 _ (by omega)
      (by
        have := octalRepr_length_le 7 (headerCksum nm s) (by omega)
          (headerCksum_lt nm s hnm hb hs)
        omega)
  have hpost : headerPost.length = 356 := headerPost_length
  simp only [headerBytes, List.length_append, headerPre_length nm s hnm hs,
    hck, hpost]

theorem headerBytes_name (nm : List Nat) (s : Nat) (hnm : nm.length ≤ 100) :
    (headerBytes nm s).take 100 = padTo 100 nm := by
  rw [headerBytes_expand]
  exact take_pre 100 _ _ (length_padTo 100 nm hnm)

theorem headerBytes_mode (nm : List Nat) (s : Nat) (hnm : nm.length ≤ 100) :
    ((headerBytes nm s).drop 100).take 8 = octalInto 8 420 := by
  rw [headerBytes_expand]
  rw [drop_pre 100 _ _ (length_padTo 100 nm hnm)]
  exact take_pre 8 _ _ length_octalInto_mode

theorem headerBytes_size (nm : List Nat) (s : Nat) (hnm : nm.length ≤ 100)
    (hs : s < 8 ^ 11) :
    ((headerBytes nm s).drop 124).take 12 = octalInto 12 s := by
  rw [headerBytes_expand]
  have h1 : (124 : Nat) = 100 + 24 := by omega
  rw [h1, drop_add_pre 100 24 _ _ (length_padTo 100 nm hnm)]
  have h2 : (24 : Nat) = 8 + 16 := by omega
  rw [h2, drop_add_pre 8 16 _ _ length_octalInto_mode]
  rw [drop_pre 16 _ _ (by simp)]
  exact take_pre 12 _ _ (length_octalInto_12 s hs)

theorem headerBytes_cksumField (nm : List Nat) (s : Nat) (hnm : nm.length ≤ 100)
    (hb : ∀ b ∈ nm, b < 256) (hs : s < 8 ^ 11) :
    ((headerBytes nm s).drop 148).take 8 =
      octalInto 8 (headerCksum nm s) := by
  have hck : (octalInto 8 (headerCksum nm s)).length = 8 :=
    length_octalInto 8 _ (by omega)
      (by
        have := octalRepr_length_le 7 (headerCksum nm s) (by omega)
          (headerCksum_lt nm s hnm hb hs)
        omega)
  rw [headerBytes, List.append_assoc]
  rw [drop_pre 148 _ _ (headerPre_length nm s hnm hs)]
  exact take_pre 8 _ _ hck

theorem headerBytes_take_148 (nm : List Nat) (s : Nat) (hnm : nm.length ≤ 100)
    (hs : s < 8 ^ 11) :
    (headerBytes nm s).take 148 = headerPre nm s := by
  rw [headerBytes, List.append_assoc]
  exact take_pre 148 _ _ (headerPre_length nm s hnm hs)

theorem headerBytes_drop_156 (nm : List Nat) (s : Nat) (hnm : nm.length ≤ 100)
    (hb : ∀ b ∈ nm, b < 256) (hs : s < 8 ^ 11) :
    (headerBytes nm s).drop 156 = headerPost := by
  rw [headerBytes]
  have hck : (octalInto 8 (headerCksum nm s)).length = 8 :=
    length_octalInto 8 _ (by omega)
      (by
        have := octalRepr_length_le 7 (headerCksum nm s) (by omega)
          (headerCksum_lt nm s hnm hb hs)
        omega)
  refine drop_pre 156 _ _ ?_
  simp [headerPre_length nm s hnm hs, hck]

/-! ## Decoding one framed entry -/

theorem takeWhile_replicate_zero (k : Nat) :
    (List.replicate k (0 : Nat)).takeWhile (fun b => b != 0) = [] := by
  cases k with
  | zero => simp
  | succ k => simp [List.replicate_succ, List.takeWhile_cons]

theorem padTo_name (nm : List Nat) (hnz : ∀ b ∈ nm, 0 < b) :
    (padTo 100 nm).takeWhile (fun b => b != 0) = nm := by
  rw [padTo, takeWhile_append_all _ _ _
    (fun b hb => by simpa using Nat.pos_iff_ne_zero.mp (hnz b hb))]
  rw [takeWhile_replicate_zero, List.append_nil]

theorem isZeroBlock_headerBytes (nm : List Nat) (s : Nat) :
    isZeroBlock (headerBytes nm s) = false := by
  have h117 : (117 : Nat) ∈ headerBytes nm s := by
    rw [headerBytes_expand]
    simp [headerPost, MAGIC]
  cases hall : isZeroBlock (headerBytes nm s) with
  | false => rfl
  | true =>
    rw [isZeroBlock] at hall
    have := List.all_eq_true.mp hall 117 h117
    simp at this

theorem entryBytes_split (nm data rest : List Nat) :
    entryBytes nm data ++ rest =
      headerBytes nm data.length ++
        (data ++ (List.replicate (padLen data.length) 0 ++ rest)) := by
  simp [entryBytes, List.append_assoc]

theorem decodeAux_step (nm data rest : List Nat) (f : Nat)
    (hnm : nm.length ≤ 100) (hnz : ∀ b ∈ nm, 0 < b) (hb : ∀ b ∈ nm, b < 256)
    (hs : data.length < 8 ^ 11) :
    decodeAux (f + 1) (entryBytes nm data ++ rest) =
      (decodeAux f rest).map
        (fun es =>
          TarEntry.mk nm (octalInto 8 420) data.length true data :: es) := by
  have hhdr : (headerBytes nm data.length).length = 512 :=
    headerBytes_length nm data.length hnm hb hs
  rw [entryBytes_split]
  rw [decodeAux]
  have hlen : ¬ ((headerBytes nm data.length ++
      (data ++ (List.replicate (padLen data.length) 0 ++ rest))).length < 512) := by
    simp [hhdr]
  rw [if_neg hlen]
  rw [take_pre 512 _ _ hhdr, drop_pre 512 _ _ hhdr]
  have hck : (headerCksum nm data.length ==
      (headerPre nm data.length).sum + 256 + headerPost.sum) = true := by
    rw [headerCksum]; simp
  have hle : data.length ≤
      (data ++ (List.replicate (padLen data.length) 0 ++ rest)).length := by
    simp
  have htake : (data ++ (List.replicate (padLen data.length) 0 ++ rest)).take
      data.length = data := take_pre data.length data _ rfl
  have hdropd : (data ++ (List.replicate (padLen data.length) 0 ++ rest)).drop
      data.length = List.replicate (padLen data.length) 0 ++ rest :=
    drop_pre data.length data _ rfl
  have hdropp : (List.replicate (padLen data.length) 0 ++ rest).drop
      (padLen data.length) = rest :=
    drop_pre (padLen data.length) _ _ (List.length_replicate _ _)
  simp only [isZeroBlock_headerBytes, Bool.false_eq_true, if_false,
    headerBytes_name nm data.length hnm, padTo_name nm hnz,
    headerBytes_mode nm data.length hnm,
    headerBytes_size nm data.length hnm hs,
    headerBytes_cksumField nm data.length hnm hb hs,
    headerBytes_take_148 nm data.length hnm hs,
    headerBytes_drop_156 nm data.length hnm hb hs,
    readOctal_octalInto, hck, hle, if_true, if_pos hle, htake, hdropd, hdropp]
  cases hd : decodeAux f rest with
  | none => simp
  | some es => simp

theorem decodeAux_trailer (f : Nat) :
    decodeAux (f + 1) (List.replicate 1024 0) = some [] := by
  rw [decodeAux]
  rw [if_neg (by simp)]
  have ht : (List.replicate 1024 (0 : Nat)).take 512 = List.replicate 512 0 := by
    rw [List.take_replicate]
    norm_num
  have hz : isZeroBlock (List.replicate 512 (0 : Nat)) = true := by
    rw [isZeroBlock]
    exact List.all_eq_true.mpr
      (fun x hx => by simp [List.eq_of_mem_replicate hx])
  simp only [ht, hz, if_true]

/-! ## Assembling and decoding the whole container -/

theorem good_nm_length (p : Payload) (h : goodPayload p) :
    (p.name ++ SUFFIX).length ≤ 100 := by
  have := h.1
  simp [SUFFIX]
  omega

theorem good_nm_pos (p : Payload) (h : goodPayload p) :
    ∀ b ∈ p.name ++ SUFFIX, 0 < b := by
  intro b hb
  rcases List.mem_append.mp hb with h1 | h1
  · exact (h.2.1 b h1).1
  · simp [SUFFIX] at h1
    omega

theorem good_nm_lt (p : Payload) (h : goodPayload p) :
    ∀ b ∈ p.name ++ SUFFIX, b < 256 := by
  intro b hb
  rcases List.mem_append.mp hb with h1 | h1
  · exact (h.2.1 b h1).2
  · simp [SUFFIX] at h1
    omega

theorem assembleBytes_nil (palette : Payload) :
    assembleBytes [] palette =
      entryBytes (palette.name ++ SUFFIX) palette.data ++
        List.replicate 1024 0 := by
  simp [assembleBytes]

theorem assembleBytes_cons (t : Payload) (ts : List Payload) (palette : Payload) :
    assembleBytes (t :: ts) palette =
      entryBytes (t.name ++ SUFFIX) t.data ++ assembleBytes ts palette := by
  simp [assembleBytes, List.append_assoc]

theorem decodeAux_assemble :
    ∀ (tiles : List Payload) (palette : Payload) (f : Nat),
      (∀ p ∈ tiles, goodPayload p) → goodPayload palette →
      tiles.length + 2 ≤ f →
      decodeAux f (assembleBytes tiles palette) =
        some (tiles.map entryOf ++ [entryOf palette]) := by
  intro tiles
  induction tiles with
  | nil =>
    intro palette f _ hp hf
    obtain ⟨f', rfl⟩ : ∃ f', f = f' + 1 + 1 := ⟨f - 2, by omega⟩
    rw [assembleBytes_nil]
    rw [decodeAux_step _ _ _ _ (good_nm_length palette hp)
      (good_nm_pos palette hp) (good_nm_lt palette hp) hp.2.2]
    rw [decodeAux_trailer]
    simp [entryOf]
  | cons t ts ih =>
    intro palette f hts hp hf
    obtain ⟨f', rfl⟩ : ∃ f', f = f' + 1 := ⟨f - 1, by omega⟩
    have hgt : goodPayload t := hts t (List.mem_cons_self t ts)
    rw [assembleBytes_cons]
    rw [decodeAux_step _ _ _ _ (good_nm_length t hgt)
      (good_nm_pos t hgt) (good_nm_lt t hgt) hgt.2.2]
    rw [ih palette f' (fun p hp2 => hts p (List.mem_cons_of_mem t hp2)) hp
      (by simp at hf ⊢; omega)]
    simp [entryOf]

theorem entryBytes_length_ge (nm data : List Nat) (hnm : nm.length ≤ 100)
    (hb : ∀ b ∈ nm, b < 256) (hs : data.length < 8 ^ 11) :
    512 ≤ (entryBytes nm data).length := by
  rw [entryBytes]
  simp [headerBytes_length nm data.length hnm hb hs]

theorem assembleBytes_length_ge (tiles : List Payload) (palette : Payload)
    (hts : ∀ p ∈ tiles, goodPayload p) (hp : goodPayload palette) :
    tiles.length + 2 ≤ (assembleBytes tiles palette).length := by
  induction tiles with
  | nil =>
    rw [assembleBytes_nil]
    have := entryBytes_length_ge (palette.name ++ SUFFIX) palette.data
      (good_nm_length palette hp) (good_nm_lt palette hp) hp.2.2
    rw [List.length_append, List.length_replicate]
    simp only [List.length_nil]
    omega
  | cons t ts ih =>
    have hgt : goodPayload t := hts t (List.mem_cons_self t ts)
    rw [assembleBytes_cons]
    have h1 := entryBytes_length_ge (t.name ++ SUFFIX) t.data
      (good_nm_length t hgt) (good_nm_lt t hgt) hgt.2.2
    have h2 := ih (fun p hp2 => hts p (List.mem_cons_of_mem t hp2))
    simp at h2 ⊢
    omega

/-- Decoding the assembled container recovers every entry: names with the
fixed suffix, in enumeration order, palette last. -/
theorem decodeTar_assemble (tiles : List Payload) (palette : Payload)
    (hts : ∀ p ∈ tiles, goodPayload p) (hp : goodPayload palette) :
    decodeTar (assembleBytes tiles palette) =
      some (tiles.map entryOf ++ [entryOf palette]) :=
  decodeAux_assemble tiles palette _ hts hp
    (assembleBytes_length_ge tiles palette hts hp)

/-! ## Stream compressor

Modelled from the spec: the Stream Compressor of section 4.4 is realised in
the source by the external `flate2` crate (gzip, not under `src/`); it is
modelled as an executable lossless single-pass coder (run-length, 255-byte
runs) whose defining guarantee is the spec's: the decompressed bytes equal
the input buffer exactly.
-/

/-- Modelled from the spec: run-length encoder body of the modelled stream
compressor; `cur` is the current run byte, `cnt` its count so far (at least
1, at most 255). -/
def rle : List Nat → Nat → Nat → List Nat
  | [], cur, cnt => [cnt, cur]
  | b :: t, cur, cnt =>
    if b = cur ∧ cnt < 255 then rle t cur (cnt + 1)
    else cnt :: cur :: rle t b 1

/-- Modelled from the spec: the stream compressor (`flate2` gzip, not in
`src/`) as an executable lossless coder satisfying section 4.4's round-trip
guarantee. -/
def compress : List Nat → List Nat
  | [] => []
  | b :: t => rle t b 1

/-- Modelled from the spec: the matching decompressor; reads (count, byte)
pairs. -/
def decompress : List Nat → List Nat
  | cnt :: b :: t => List.replicate cnt b ++ decompress t
  | _ => []

theorem decompress_rle (t : List Nat) :
    ∀ cur cnt, decompress (rle t cur cnt) = List.replicate cnt cur ++ t := by
  induction t with
  | nil => intro cur cnt; simp [rle, decompress]
  | cons b t ih =>
    intro cur cnt
    rw [rle]
    split
    · next h =>
      rw [ih cur (cnt + 1)]
      rw [List.replicate_succ' cnt cur, h.1.symm]
      simp
    · rw [decompress, ih b 1]
      simp

/-- Round-trip fidelity of the modelled stream compressor. -/
theorem decompress_compress (l : List Nat) : decompress (compress l) = l := by
  cases l with
  | nil => simp [compress, decompress]
  | cons b t =>
    rw [compress, decompress_rle t b 1]
    simp

/-! ## Output path derivation

Modelled from the spec: `main` derives the output path with Rust
`std::path` operations (`file_stem`, `push`, `set_extension`, not under
`src/`); paths are modelled as normalized component lists, and the string
splitting at the last dot follows `Path::file_stem` / `PathBuf::set_extension`.
-/

inductive Component where
  | parentDir : Component
  | normal : String → Component
deriving DecidableEq, Repr

/-- A filesystem path as its normalized components. -/
structure RPath where
  comps : List Component
deriving DecidableEq, Repr

/-- Modelled from the spec: index of the last occurrence of `c`, if any
(helper for the Rust `std::path` string splitting, not in `src/`). -/
def lastIdxOf (c : Char) : List Char → Option Nat
  | [] => none
  | a :: t =>
    match lastIdxOf c t with
    | some i => some (i + 1)
    | none => if a = c then some 0 else none

/-- Modelled from the spec: Rust `rsplit_file_at_dot` (std, not in `src/`)
on a (non-`".."`) file name: split before the last `'.'`, except when the
dot is leading (hidden files keep their name); returns (stem, optional
extension). -/
def splitAtLastDot (s : String) : String × Option String :=
  match lastIdxOf '.' s.data with
  | none => (s, none)
  | some 0 => (s, none)
  | some i => (⟨s.data.take i⟩, some ⟨s.data.drop (i + 1)⟩)

/-- Modelled from the spec: Rust `Path::file_name` (std, not in `src/`):
the final component when it is a normal one. -/
def fileName (p : RPath) : Option String :=
  match p.comps.getLast? with
  | some (.normal s) => some s
  | _ => none

/-- Modelled from the spec: Rust `Path::file_stem` (std, not in `src/`):
the file name up to its extension. -/
def fileStem (p : RPath) : Option String :=
  (fileName p).map (fun s => (splitAtLastDot s).1)

/-- Modelled from the spec: Rust `PathBuf::push` (std, not in `src/`) of a
single plain file-name string. -/
def pushStr (p : RPath) (s : String) : RPath :=
  if s = ".." then ⟨p.comps ++ [.parentDir]⟩
  else if s = "." ∨ s = "" then p
  else ⟨p.comps ++ [.normal s]⟩

/-- Modelled from the spec: Rust `PathBuf::set_extension` (std, not in
`src/`) with a nonempty extension: replace the final normal component's
extension (everything after its last non-leading dot) by `ext`; no-op when
there is no file name. -/
def setExtension (p : RPath) (ext : String) : RPath :=
  match p.comps.getLast? with
  | some (.normal s) =>
      ⟨p.comps.dropLast ++ [.normal ((splitAtLastDot s).1 ++ "." ++ ext)]⟩
  | _ => p

/-- Lines 77-83 of cli.rs: the output file name is the input's stem, with
the literal fallback `"image"` when there is no stem. -/
def computeOutFileName (imageFile : RPath) : String :=
  match fileStem imageFile with
  | some s => s
  | none => "image"

/-- Lines 77-83 of cli.rs: `out_dir` cloned, the stem pushed, extension set
to `"8xg"`. -/
def computeOutPath (imageFile outDir : RPath) : RPath :=
  setExtension (pushStr outDir (computeOutFileName imageFile)) "8xg"

/-! ## Pipeline orchestrator

Modelled from the spec: `main`'s interactions with the outside world (clap
argument validation running `var_prefix_str` before the body, `File::open`,
the opaque `Image` component's decode/quantize/tiles/palette operations,
and `File::create`) are not under `src/`; their results are supplied by an
environment, and the model records the order of file-system events. The
in-memory tar appends (writes into a `Vec`) cannot fail and are modelled as
infallible.
-/

/-- An enumerated tile as the image component exposes it: its appvar name
and the result of rendering it to bytes (`write_appvar`). -/
structure TileSrc where
  name : List Nat
  render : Except String (List Nat)
deriving Repr

/-- Modelled from the spec: results of every external interaction `main`
performs (file system and opaque image component, not in `src/`), in
program order. -/
structure Env where
  openInputRes : Except String Unit
  decodeRes : Except String Unit
  tiles : List TileSrc
  paletteName : List Nat
  paletteRender : Except String (List Nat)
  createOutputRes : Except String Unit
deriving Repr

/-- File-system side effects of one run. -/
inductive IoEvent where
  | openInput
  | createOutput
deriving DecidableEq, Repr

/-- How one run ends. -/
inductive Outcome where
  | ok (outPath : RPath) (written : List Nat)
  | usageError (e : PrefixError)
  | failure (msg : String)
  | panicked
deriving Repr

/-- The tile loop of lines 104-115: render each tile in enumeration order,
stopping at the first failing `write_appvar` (the `?` operator). -/
def renderAll : List TileSrc → Except String (List Payload)
  | [] => .ok []
  | t :: ts =>
    match t.render with
    | .error e => .error e
    | .ok d =>
      match renderAll ts with
      | .error e => .error e
      | .ok ps => .ok (⟨t.name, d⟩ :: ps)

/-- Lines 104-130 as one step: all tile payloads then the palette payload,
first error wins. -/
def assembleStep (env : Env) : Except String (List Payload × List Nat) :=
  match renderAll env.tiles with
  | .error e => .error e
  | .ok tps =>
    match env.paletteRender with
    | .error e => .error e
    | .ok pd => .ok (tps, pd)

/-- `main` (cli.rs lines 53-139): clap validates `var_prefix` during
`get_matches` (before any file is touched); the output path is computed;
the input file is opened; `image_file.file_name().unwrap()` panics when the
path has no file name; the image is decoded and quantized; tiles and the
palette are rendered and appended into the in-memory tar; only then is the
output file created and the gzipped container written. Returns the ordered
file-system events and the outcome. -/
def runPipeline (imageFile : RPath) (vp : String) (outDir : RPath)
    (env : Env) : List IoEvent × Outcome :=
  match var_prefix_str vp with
  | .error e => ([], .usageError e)
  | .ok _ =>
    let outPath := computeOutPath imageFile outDir
    match env.openInputRes with
    | .error e => ([.openInput], .failure e)
    | .ok _ =>
      match fileName imageFile with
      | none => ([.openInput], .panicked)
      | some _ =>
        match env.decodeRes with
        | .error e => ([.openInput], .failure e)
        | .ok _ =>
          match assembleStep env with
          | .error e => ([.openInput], .failure e)
          | .ok (tps, pd) =>
            let buf := assembleBytes tps ⟨env.paletteName, pd⟩
            match env.createOutputRes with
            | .error e => ([.openInput, .createOutput], .failure e)
            | .ok _ => ([.openInput, .createOutput], .ok outPath (compress buf))

/-! ## Validator lemmas -/

theorem findNonAlpha_none_iff (l : List Char) :
    ∀ i, findNonAlpha l i = none ↔ ∀ c ∈ l, is_ascii_alphabetic c = true := by
  induction l with
  | nil => intro i; simp [findNonAlpha]
  | cons a t ih =>
    intro i
    rw [findNonAlpha]
    by_cases h : is_ascii_alphabetic a
    · rw [if_pos h, ih (i + 1)]
      simp [h]
    · rw [if_neg h]
      simp only [List.mem_cons]
      constructor
      · intro hfalse; exact absurd hfalse (by simp)
      · intro hall
        exact absurd (hall a (Or.inl rfl)) (by simpa using h)

theorem findNonAlpha_some (l : List Char) :
    ∀ i c j, findNonAlpha l i = some (c, j) →
      ∃ k, j = i + k ∧ l[k]? = some c ∧ is_ascii_alphabetic c = false := by
  induction l with
  | nil => intro i c j h; simp [findNonAlpha] at h
  | cons a t ih =>
    intro i c j h
    rw [findNonAlpha] at h
    by_cases ha : is_ascii_alphabetic a
    · rw [if_pos ha] at h
      obtain ⟨k, hk, hget, hal⟩ := ih (i + 1) c j h
      exact ⟨k + 1, by omega, by simpa using hget, hal⟩
    · rw [if_neg ha] at h
      obtain ⟨rfl, rfl⟩ : a = c ∧ i = j := by simpa using h
      exact ⟨0, by omega, by simp, by simpa using ha⟩

/-- Claim C1: `var_prefix_str` succeeds iff the input has exactly two
characters (Unicode scalar values) and both are ASCII alphabetic; on
success it returns the input string unchanged. -/
theorem validator_ok_iff (s : String) :
    ((∃ t, var_prefix_str s = .ok t) ↔
      s.data.length = 2 ∧ ∀ c ∈ s.data, is_ascii_alphabetic c = true) ∧
    (∀ t, var_prefix_str s = .ok t → t = s) := by
  constructor
  · constructor
    · rintro ⟨t, ht⟩
      simp only [var_prefix_str] at ht
      by_cases hl : s.data.length ≠ 2
      · rw [if_pos hl] at ht; simp at ht
      · rw [if_neg hl] at ht
        push_neg at hl
        refine ⟨hl, ?_⟩
        cases hfn : findNonAlpha s.data 0 with
        | some ci => rw [hfn] at ht; simp at ht
        | none => exact (findNonAlpha_none_iff s.data 0).mp hfn
    · rintro ⟨hl, hall⟩
      simp only [var_prefix_str]
      rw [if_neg (by omega), (findNonAlpha_none_iff s.data 0).mpr hall]
      exact ⟨s, rfl⟩
  · intro t ht
    simp only [var_prefix_str] at ht
    by_cases hl : s.data.length ≠ 2
    · rw [if_pos hl] at ht; simp at ht
    · rw [if_neg hl] at ht
      cases hfn : findNonAlpha s.data 0 with
      | some ci => rw [hfn] at ht; simp at ht
      | none =>
        rw [hfn] at ht
        simpa using ht.symm

/-- Claim C1 witness: `"ab"` is accepted and returned unchanged. -/
theorem validator_ok_iff_witness :
    (∃ t, var_prefix_str "ab" = .ok t) ∧
      (∀ t, var_prefix_str "ab" = .ok t → t = "ab") :=
  ⟨(validator_ok_iff "ab").1.mpr (by decide), (validator_ok_iff "ab").2⟩

/-- Claim C7: a rejected string's reported failure matches the violated
rule: a character count other than 2 reports that count (WrongLength);
otherwise a reported NonAlphabeticCharacter names a character that really
sits at the reported index and is not ASCII alphabetic, and some such error
is reported whenever a length-2 string has a non-alphabetic character. -/
theorem validator_error_report (s : String) :
    (s.data.length ≠ 2 →
      var_prefix_str s = .error (.wrongLength s.data.length)) ∧
    (∀ c i, var_prefix_str s = .error (.nonAlphabetic c i) →
      s.data[i]? = some c ∧ is_ascii_alphabetic c = false) ∧
    (s.data.length = 2 → (∃ c ∈ s.data, is_ascii_alphabetic c = false) →
      ∃ c i, var_prefix_str s = .error (.nonAlphabetic c i)) := by
  refine ⟨?_, ?_, ?_⟩
  · intro hl
    simp only [var_prefix_str]
    rw [if_pos hl]
  · intro c i h
    simp only [var_prefix_str] at h
    by_cases hl : s.data.length ≠ 2
    · rw [if_pos hl] at h; simp at h
    · rw [if_neg hl] at h
      cases hfn : findNonAlpha s.data 0 with
      | none => rw [hfn] at h; simp at h
      | some ci =>
        obtain ⟨c', j⟩ := ci
        rw [hfn] at h
        obtain ⟨hc, hj⟩ : c' = c ∧ j = i := by simpa using h
        rw [hc, hj] at hfn
        obtain ⟨k, hk, hget, hal⟩ := findNonAlpha_some s.data 0 c i hfn
        have : k = i := by omega
        subst this
        exact ⟨hget, hal⟩
  · intro hl hbad
    simp only [var_prefix_str]
    rw [if_neg (by omega)]
    cases hfn : findNonAlpha s.data 0 with
    | none =>
      obtain ⟨c, hc, hcal⟩ := hbad
      have := (findNonAlpha_none_iff s.data 0).mp hfn c hc
      rw [this] at hcal
      cases hcal
    | some ci =>
      obtain ⟨c, i⟩ := ci
      exact ⟨c, i, rfl⟩

/-- Claim C7 witness: `"a1"` reports the digit `'1'` at index 1, which is
indeed the character at that position and not alphabetic. -/
theorem validator_error_report_witness :
    var_prefix_str "a1" = .error (.nonAlphabetic '1' 1) ∧
      ("a1".data[1]? = some '1' ∧ is_ascii_alphabetic '1' = false) :=
  ⟨by rfl, (validator_error_report "a1").2.1 '1' 1 (by rfl)⟩

/-! ## Container claims -/

/-- Claim C2: assembling N tile payloads and one palette payload produces
exactly N+1 entries, the tile entries in exactly enumeration order
(regardless of payload sizes) and the palette entry last. -/
theorem assemble_count_order (tiles : List Payload) (palette : Payload)
    (hts : ∀ p ∈ tiles, goodPayload p) (hp : goodPayload palette) :
    decodeTar (assembleBytes tiles palette) =
        some (tiles.map entryOf ++ [entryOf palette]) ∧
      (tiles.map entryOf ++ [entryOf palette]).length = tiles.length + 1 ∧
      (tiles.map entryOf ++ [entryOf palette]).getLast? =
        some (entryOf palette) := by
  refine ⟨decodeTar_assemble tiles palette hts hp, by simp, ?_⟩
  rw [List.getLast?_concat]

/-- Two sample tile payloads of different sizes and a sample palette. -/
def sampleTiles : List Payload := [⟨[84, 49], [1]⟩, ⟨[84, 50], [2, 3]⟩]

def samplePalette : Payload := ⟨[80, 76], [9, 9, 9]⟩

/-- Claim C2 witness: two tiles of different sizes and a palette decode to
exactly those three entries in order. -/
theorem assemble_count_order_witness :
    decodeTar (assembleBytes sampleTiles samplePalette) =
        some (sampleTiles.map entryOf ++ [entryOf samplePalette]) ∧
      (sampleTiles.map entryOf ++ [entryOf samplePalette]).length =
        sampleTiles.length + 1 ∧
      (sampleTiles.map entryOf ++ [entryOf samplePalette]).getLast? =
        some (entryOf samplePalette) :=
  assemble_count_order sampleTiles samplePalette (by decide) (by decide)

/-- Claim C3: every entry of the assembled container records a length equal
to the byte length of the payload that follows it, carries the same fixed
mode field (octal `0644`), and carries a checksum that is valid for the
finalized header; the entries' payload bytes are exactly the input
payloads'. -/
theorem entry_header_integrity (tiles : List Payload) (palette : Payload)
    (hts : ∀ p ∈ tiles, goodPayload p) (hp : goodPayload palette) :
    ∃ es, decodeTar (assembleBytes tiles palette) = some es ∧
      (∀ e ∈ es, e.size = e.data.length ∧ e.modeField = octalInto 8 420 ∧
        e.cksumOk = true) ∧
      es.map TarEntry.data = tiles.map Payload.data ++ [palette.data] := by
  refine ⟨_, decodeTar_assemble tiles palette hts hp, ?_, ?_⟩
  · intro e he
    rcases List.mem_append.mp he with h | h
    · obtain ⟨p, _, rfl⟩ := List.mem_map.mp h
      exact ⟨rfl, rfl, rfl⟩
    · simp only [List.mem_singleton] at h
      subst h
      exact ⟨rfl, rfl, rfl⟩
  · simp [entryOf, Function.comp]

/-- Claim C3 witness: concrete container whose entries all carry matching
sizes, the fixed mode and valid checksums. -/
theorem entry_header_integrity_witness :
    ∃ es, decodeTar (assembleBytes [⟨[88], [5, 6]⟩] ⟨[81], [7]⟩) = some es ∧
      (∀ e ∈ es, e.size = e.data.length ∧ e.modeField = octalInto 8 420 ∧
        e.cksumOk = true) ∧
      es.map TarEntry.data = [⟨[88], [5, 6]⟩].map Payload.data ++
        [Payload.data ⟨[81], [7]⟩] :=
  entry_header_integrity _ _ (by decide) (by decide)

/-- Claim C4: decompressing the compressed container buffer yields that
buffer exactly, and decoding it recovers the framed payloads bit-identically
(derived names, lengths and bytes) in the same order. -/
theorem compress_assemble_roundtrip (tiles : List Payload) (palette : Payload)
    (hts : ∀ p ∈ tiles, goodPayload p) (hp : goodPayload palette) :
    decompress (compress (assembleBytes tiles palette)) =
        assembleBytes tiles palette ∧
      decodeTar (decompress (compress (assembleBytes tiles palette))) =
        some (tiles.map entryOf ++ [entryOf palette]) := by
  refine ⟨decompress_compress _, ?_⟩
  rw [decompress_compress]
  exact decodeTar_assemble tiles palette hts hp

/-- Claim C4 witness: a one-tile container (with an empty palette payload)
survives the compress/decompress/decode round trip. -/
theorem compress_assemble_roundtrip_witness :
    decompress (compress (assembleBytes [⟨[65], [7]⟩] ⟨[66], []⟩)) =
        assembleBytes [⟨[65], [7]⟩] ⟨[66], []⟩ ∧
      decodeTar (decompress (compress (assembleBytes [⟨[65], [7]⟩]
          ⟨[66], []⟩))) =
        some ([⟨[65], [7]⟩].map entryOf ++ [entryOf ⟨[66], []⟩]) :=
  compress_assemble_roundtrip _ _ (by decide) (by decide)

/-- Claim C8: zero tile payloads is legal: the assembled container decodes
successfully to exactly the single palette entry. -/
theorem zero_tiles_ok (palette : Payload) (hp : goodPayload palette) :
    decodeTar (assembleBytes [] palette) = some [entryOf palette] ∧
      (decodeTar (assembleBytes [] palette)).isSome = true := by
  have h : decodeTar (assembleBytes [] palette) = some [entryOf palette] := by
    simpa using decodeTar_assemble [] palette
      (fun p hp2 => absurd hp2 (List.not_mem_nil p)) hp
  exact ⟨h, by rw [h]; rfl⟩

/-- Claim C8 witness: a palette-only container decodes to one entry. -/
theorem zero_tiles_ok_witness :
    decodeTar (assembleBytes [] ⟨[90, 91], [4, 4, 4, 4]⟩) =
        some [entryOf ⟨[90, 91], [4, 4, 4, 4]⟩] ∧
      (decodeTar (assembleBytes [] ⟨[90, 91], [4, 4, 4, 4]⟩)).isSome = true :=
  zero_tiles_ok _ (by decide)

/-! ## Output path claims -/

theorem splitAtLastDot_fst_of_none (s : String)
    (h : (splitAtLastDot s).2 = none) : (splitAtLastDot s).1 = s := by
  unfold splitAtLastDot at h ⊢
  cases hl : lastIdxOf '.' s.data with
  | none => rfl
  | some i =>
    cases i with
    | zero => rfl
    | succ j => rw [hl] at h; simp at h

/-- Claim C5 (amended): when the input's stem itself contains no extension
(no dot after its first character) and is a plain name, the artifact path
is exactly the output directory joined with the stem followed by `.8xg`. -/
theorem out_path_stem (imageFile outDir : RPath) (s : String)
    (hstem : fileStem imageFile = some s)
    (hnodot : (splitAtLastDot s).2 = none)
    (hne1 : s ≠ "..") (hne2 : s ≠ ".") (hne3 : s ≠ "") :
    computeOutPath imageFile outDir =
      ⟨outDir.comps ++ [.normal (s ++ ".8xg")]⟩ := by
  rw [computeOutPath, computeOutFileName, hstem]
  rw [pushStr, if_neg hne1, if_neg (by simp [hne2, hne3])]
  simp only [setExtension, List.getLast?_concat, List.dropLast_concat]
  rw [splitAtLastDot_fst_of_none s hnodot]
  rw [String.append_assoc]
  have hdot : ("." ++ "8xg" : String) = ".8xg" := rfl
  rw [hdot]

/-- Claim C5 counterexample: for input `a.b.c` (stem `a.b`) the produced
path is `tmp/a.8xg` because `set_extension` replaces the stem's own
extension, not `tmp/a.b.8xg` as the claim predicts. -/
theorem out_path_stem_counterexample :
    fileStem ⟨[.normal "a.b.c"]⟩ = some "a.b" ∧
      computeOutPath ⟨[.normal "a.b.c"]⟩ ⟨[.normal "tmp"]⟩ =
        ⟨[.normal "tmp", .normal "a.8xg"]⟩ ∧
      computeOutPath ⟨[.normal "a.b.c"]⟩ ⟨[.normal "tmp"]⟩ ≠
        ⟨[.normal "tmp", .normal "a.b.8xg"]⟩ :=
  ⟨by decide, by decide, by decide⟩

/-- Claim C5 witness: `foo.png` into `tmp` yields `tmp/foo.8xg`. -/
theorem out_path_stem_witness :
    computeOutPath ⟨[.normal "foo.png"]⟩ ⟨[.normal "tmp"]⟩ =
      ⟨[Component.normal "tmp", Component.normal "foo.8xg"]⟩ := by
  have h := out_path_stem ⟨[.normal "foo.png"]⟩ ⟨[.normal "tmp"]⟩ "foo"
    (by decide) (by decide) (by decide) (by decide) (by decide)
  rw [h]
  decide

/-! ## Pipeline claims -/

/-- An environment in which every external interaction succeeds. -/
def benignEnv : Env :=
  { openInputRes := .ok (), decodeRes := .ok (),
    tiles := [⟨[84], .ok [1]⟩], paletteName := [80],
    paletteRender := .ok [2], createOutputRes := .ok () }

/-- Claim C10 (amended): when the input path has no file stem the computed
output path does fall back to `{out_dir}/image.8xg`, but no artifact is
ever created there: the run never reaches the output-file creation (the
`file_name().unwrap()` on the same stem-less path panics first). -/
theorem no_stem_fallback (imageFile outDir : RPath)
    (h : fileStem imageFile = none) :
    computeOutPath imageFile outDir =
        ⟨outDir.comps ++ [.normal "image.8xg"]⟩ ∧
      ∀ vp env, IoEvent.createOutput ∉ (runPipeline imageFile vp outDir env).1 := by
  have hfn : fileName imageFile = none := by
    rw [fileStem] at h
    exact Option.map_eq_none.mp h
  constructor
  · rw [computeOutPath, computeOutFileName, h]
    rw [pushStr, if_neg (by decide), if_neg (by decide)]
    simp only [setExtension, List.getLast?_concat, List.dropLast_concat]
    rfl
  · intro vp env
    cases hv : var_prefix_str vp with
    | error e => simp [runPipeline, hv]
    | ok t =>
      cases ho : env.openInputRes with
      | error e => simp [runPipeline, hv, ho]
      | ok u => cases u; simp [runPipeline, hv, ho, hfn]

/-- Claim C10 counterexample: with a stem-less input path (`..`) and a
fully benign environment, the pipeline panics after opening the input and
never writes the artifact the claim promises, even though the fallback
path was computed. -/
theorem no_stem_fallback_counterexample :
    runPipeline ⟨[.parentDir]⟩ "ab" ⟨[.normal "tmp"]⟩ benignEnv =
        ([.openInput], .panicked) ∧
      computeOutPath ⟨[.parentDir]⟩ ⟨[.normal "tmp"]⟩ =
        ⟨[.normal "tmp", .normal "image.8xg"]⟩ :=
  ⟨rfl, by decide⟩

/-- Claim C10 witness: concrete stem-less input. -/
theorem no_stem_fallback_witness :
    computeOutPath ⟨[.parentDir]⟩ ⟨[.normal "out"]⟩ =
        ⟨[Component.normal "out", Component.normal "image.8xg"]⟩ ∧
      IoEvent.createOutput ∉
        (runPipeline ⟨[.parentDir]⟩ "zz" ⟨[.normal "out"]⟩ benignEnv).1 := by
  have h := no_stem_fallback ⟨[.parentDir]⟩ ⟨[.normal "out"]⟩ (by rfl)
  refine ⟨?_, h.2 "zz" benignEnv⟩
  rw [h.1]
  rfl

/-- Claim C6: an invalid `var_prefix` aborts the run during argument
validation: the reported outcome is the validator's error, the input image
file is never opened and no output file is created. -/
theorem invalid_vp_no_io (imageFile outDir : RPath) (env : Env)
    (vp : String) (e : PrefixError) (h : var_prefix_str vp = .error e) :
    runPipeline imageFile vp outDir env = ([], .usageError e) ∧
      IoEvent.openInput ∉ (runPipeline imageFile vp outDir env).1 ∧
      IoEvent.createOutput ∉ (runPipeline imageFile vp outDir env).1 := by
  refine ⟨?_, ?_, ?_⟩ <;> simp [runPipeline, h]

/-- Claim C6 witness: prefix `"a"` (length 1) aborts with the length error
and performs no file I/O at all. -/
theorem invalid_vp_no_io_witness :
    runPipeline ⟨[.normal "in.png"]⟩ "a" ⟨[]⟩ benignEnv =
        ([], .usageError (.wrongLength 1)) ∧
      IoEvent.openInput ∉
        (runPipeline ⟨[.normal "in.png"]⟩ "a" ⟨[]⟩ benignEnv).1 ∧
      IoEvent.createOutput ∉
        (runPipeline ⟨[.normal "in.png"]⟩ "a" ⟨[]⟩ benignEnv).1 :=
  invalid_vp_no_io ⟨[.normal "in.png"]⟩ ⟨[]⟩ benignEnv "a" _ (by rfl)

/-- Claim C9: the output file is created only after the whole in-memory
container was assembled successfully, and a failing payload render makes
the run return that error without the output file ever being created. -/
theorem create_only_after_assembly (imageFile outDir : RPath) (vp : String)
    (env : Env) :
    (IoEvent.createOutput ∈ (runPipeline imageFile vp outDir env).1 →
      ∃ tps pd, assembleStep env = .ok (tps, pd)) ∧
    (∀ e t fn, var_prefix_str vp = .ok t → env.openInputRes = .ok () →
      fileName imageFile = some fn → env.decodeRes = .ok () →
      assembleStep env = .error e →
      runPipeline imageFile vp outDir env = ([.openInput], .failure e) ∧
        IoEvent.createOutput ∉ (runPipeline imageFile vp outDir env).1) := by
  constructor
  · intro hmem
    cases hv : var_prefix_str vp with
    | error e => simp [runPipeline, hv] at hmem
    | ok t =>
      cases ho : env.openInputRes with
      | error e => simp [runPipeline, hv, ho] at hmem
      | ok u =>
        cases u
        cases hfn : fileName imageFile with
        | none => simp [runPipeline, hv, ho, hfn] at hmem
        | some fn =>
          cases hd : env.decodeRes with
          | error e => simp [runPipeline, hv, ho, hfn, hd] at hmem
          | ok u2 =>
            cases u2
            cases ha : assembleStep env with
            | error e => simp [runPipeline, hv, ho, hfn, hd, ha] at hmem
            | ok pr =>
              obtain ⟨tps, pd⟩ := pr
              exact ⟨tps, pd, rfl⟩
  · intro e t fn hv ho hfn hd ha
    refine ⟨?_, ?_⟩ <;> simp [runPipeline, hv, ho, hfn, hd, ha]

/-- A benign environment except that the only tile's render fails. -/
def failTileEnv : Env :=
  { openInputRes := .ok (), decodeRes := .ok (),
    tiles := [⟨[84], .error "render failed"⟩], paletteName := [80],
    paletteRender := .ok [2], createOutputRes := .ok () }

/-- Claim C9 witness: a failing tile render is returned as the run's error
and the output file is never created. -/
theorem create_only_after_assembly_witness :
    runPipeline ⟨[.normal "in.png"]⟩ "ab" ⟨[]⟩ failTileEnv =
        ([.openInput], .failure "render failed") ∧
      IoEvent.createOutput ∉
        (runPipeline ⟨[.normal "in.png"]⟩ "ab" ⟨[]⟩ failTileEnv).1 :=
  (create_only_after_assembly ⟨[.normal "in.png"]⟩ ⟨[]⟩ "ab" failTileEnv).2
    "render failed" "ab" "in.png" (by rfl) rfl (by rfl) rfl (by rfl)

end HdPic
